import Mathlib

/-!
Shallow embedding of the dcrps tool (src/main.go) and verification of its
process-tree construction and rendering algorithm, the snapshot index, the
list-mode column widths, and the CLI dispatch behaviour.
-/

namespace Dcrps

/-- Embedding of the `goprocess.P` process record consumed by dcrps:
identifier, parent identifier, executable name, path, build version and the
diagnostic-agent flag. -/
structure P where
  PID : Int
  PPID : Int
  Exec : String
  Path : String
  BuildVersion : String
  Agent : Bool
deriving DecidableEq, Repr

/-- Embedding of Go `strings.HasPrefix s pre` as a character-list prefix
test (byte/char prefix agree for the ASCII prefix used here). -/
def hasPre (s pre : String) : Bool := pre.data.isPrefixOf s.data

/-- The family name prefix constant `dcrPrefix = "dcr"` (src/main.go line 39). -/
def dcrPrefix : String := "dcr"

/-- Rendered tree node, embedding the `treeprint.Tree` values produced by
`constructProcessTree`: an optional meta marker (set to "*" by
`AddMetaBranch`), a textual value and the list of child branches. -/
inductive Tree where
  | node (m : Option String) (value : String) (children : List Tree)
deriving Repr

/-- Value (label) carried by a tree node. -/
def Tree.value : Tree → String
  | .node _ v _ => v

/-- Children of a tree node. -/
def Tree.children : Tree → List Tree
  | .node _ _ cs => cs

/-- Meta marker of a tree node (`some "*"` for agent branches). -/
def Tree.metaOf : Tree → Option String
  | .node m _ _ => m

mutual

/-- Number of nodes of a rendered tree (the node itself plus all
descendants). -/
def countNodes : Tree → Nat
  | .node _ _ cs => 1 + countNodesList cs

/-- Total number of nodes of a list of rendered trees. -/
def countNodesList : List Tree → Nat
  | [] => 0
  | t :: ts => countNodes t + countNodesList ts

end

/-- Number of nodes contributed by the optional subtree returned by one
`constructProcessTree` call (`none` when the call was skipped). -/
def countNodesOpt : Option Tree → Nat
  | none => 0
  | some t => countNodes t

/-- Pointwise update of a map from parent identifiers to child buckets,
embedding assignment to the Go map `pstree`. -/
def updateMap (m : Int → List P) (k : Int) (v : List P) : Int → List P :=
  fun j => if j = k then v else m j

/-- Embedding of the `pstree` construction loop of `displayProcessTree`
(src/main.go lines 198-204): every record whose executable name carries the
family prefix is appended to the bucket keyed by its parent identifier. -/
def buildPstree (ps : List P) : Int → List P :=
  ps.foldl
    (fun m p =>
      if hasPre p.Exec dcrPrefix then updateMap m p.PPID (m p.PPID ++ [p]) else m)
    (fun _ => [])

/-- Embedding of the child loop of `constructProcessTree` (src/main.go lines
233-236): iterate the bucket in order, invoking the recursive call `go` with
the child's own PID as the next parent key, threading the one visited set,
and collect the branches actually added under the current node. -/
def childLoop (go : Int → P → List Int → Option (List Int × Option Tree)) : List P → List Int → Option (List Int × List Tree)
  | [], seen => some (seen, [])
  | c :: rest, seen =>
    match go c.PID c seen with
    | none => none
    | some (s1, t) =>
      match childLoop go rest s1 with
      | none => none
      | some (s2, ts) => some (s2, t.toList ++ ts)

/-- Embedding of `constructProcessTree` (src/main.go lines 218-237).  The Go
function recurses without any bound; here the extra `Nat` argument is an
explicit bound on the recursion depth (each nested call consumes one unit)
and `none` means the bound was hit.  The visited set `seen` is threaded as a
list; the returned optional tree is the branch added under the caller's node
(`none` when the call returned without adding a branch because `ppid` was
already visited). -/
def constructProcessTree (pstree : Int → List P) : Nat → Int → P → List Int → Option (List Int × Option Tree)
  | 0, _, _, _ => none
  | fuel+1, ppid, process, seen =>
    if ppid ∈ seen then some (seen, none)
    else
      match childLoop (constructProcessTree pstree fuel) (pstree ppid) (ppid :: seen) with
      | none => none
      | some (seen2, kids) =>
        if ppid ≠ process.PPID then
          some (seen2, some (Tree.node (if process.Agent then some "*" else none)
            (toString ppid ++ " (" ++ process.Exec ++ ")" ++ " \x7b" ++ process.BuildVersion ++ "\x7d") kids))
        else
          some (seen2, some (Tree.node none (toString ppid) kids))

/-- Embedding of the top-level loop of `displayProcessTree` (src/main.go
lines 208-213): every family record seeds one `constructProcessTree` call
keyed by its parent identifier, with the one shared visited set. -/
def displayLoop (pstree : Int → List P) (fuel : Nat) : List P → List Int → Option (List Int × List Tree)
  | [], seen => some (seen, [])
  | p :: rest, seen =>
    if hasPre p.Exec dcrPrefix then
      match constructProcessTree pstree fuel p.PPID p seen with
      | none => none
      | some (s1, t) =>
        match displayLoop pstree fuel rest s1 with
        | none => none
        | some (s2, ts) => some (s2, t.toList ++ ts)
    else displayLoop pstree fuel rest seen

/-- Embedding of `displayProcessTree` (src/main.go lines 196-215): build the
snapshot index, seed the render from every filtered record, and return the
final visited set together with the root tree (value "..." as set by
`tree.SetValue`). -/
def displayProcessTree (ps : List P) (fuel : Nat) : Option (List Int × Tree) :=
  match displayLoop (buildPstree ps) fuel ps [] with
  | none => none
  | some (seen, kids) => some (seen, Tree.node none "..." kids)

/-- Recursion-depth bound used to run the render: strictly larger than the
depth the render can reach on `ps`. -/
def defaultFuel (ps : List P) : Nat := 2 * ps.length + 3

/-- The whole tree render on a snapshot, run with a sufficient depth bound. -/
def renderProcessTree (ps : List P) : Option (List Int × Tree) :=
  displayProcessTree ps (defaultFuel ps)

mutual

/-- Modelled from the spec: the `String()` rendering of the third-party
treeprint library is not part of this repository's source; §6 only fixes
UTF-8 text with three glyph classes (normal branch, agent-marked branch,
leaf) and the composed labels.  This renders one node: its line (meta
markers bracketed before the value) followed by its subtree. -/
def renderNode (pre childPre : String) : Tree → String
  | .node m v cs =>
    pre ++ (match m with | some s => "[" ++ s ++ "]  " ++ v | none => v) ++ "\n"
      ++ renderForest childPre cs

/-- Modelled from the spec: rendering of a list of sibling branches, middle
siblings with a branch glyph and continuation bar, the last with a leaf
glyph. -/
def renderForest (pre : String) : List Tree → String
  | [] => ""
  | [t] => renderNode (pre ++ "└── ") (pre ++ "    ") t
  | t :: ts => renderNode (pre ++ "├── ") (pre ++ "│   ") t ++ renderForest pre ts

end

/-- Modelled from the spec: the textual rendering of the whole tree, root
value on its own line followed by the branches. -/
def treeString : Tree → String
  | .node _ v cs => v ++ "\n" ++ renderForest "" cs

/-- Text written to standard output by the tree mode (src/main.go line 214:
`fmt.Println(tree.String())`, which appends one newline). -/
def displayOutput (ps : List P) : Option String :=
  (renderProcessTree ps).map (fun r => treeString r.2 ++ "\n")

/-- The family-filtered list `dcrPs` built by `processes` (src/main.go lines
123-129). -/
def dcrPs (ps : List P) : List P := ps.filter (fun p => hasPre p.Exec dcrPrefix)

/-- PID column width computed by `processes` (src/main.go lines 138-144):
running maximum of the decimal print widths. -/
def maxPID (l : List P) : Nat :=
  l.foldl (fun acc p => max acc (toString p.PID).length) 0

/-- PPID column width computed by `processes` (src/main.go lines 138-144). -/
def maxPPID (l : List P) : Nat :=
  l.foldl (fun acc p => max acc (toString p.PPID).length) 0

/-- Executable-name column width computed by `processes` (src/main.go lines
138-144). -/
def maxExec (l : List P) : Nat :=
  l.foldl (fun acc p => max acc p.Exec.length) 0

/-- Version column width computed by `processes` (src/main.go lines
138-144). -/
def maxVersion (l : List P) : Nat :=
  l.foldl (fun acc p => max acc p.BuildVersion.length) 0

/-- The help text `helpText` (src/main.go lines 41-64). -/
def helpText : String :=
  "dcrps is a tool to list and diagnose Decred Go processes.\n\ndcrps <\"help\"|\"tree\">\ndcrps <cmd> <exec|pid|addr> ...\ndcrps <exec|pid> # displays process info\n\nCommands with no argument:\n    help        Displays this message.\n    tree        Displays process tree.\n\nCommands with <exec|pid|addr> argument:\n    stack       Prints the stack trace.\n    gc          Runs the garbage collector and blocks until successful.\n    setgc\t    Sets the garbage collection target percentage.\n    memstats    Prints the allocation and garbage collection stats.\n    version     Prints the Go version used to build the program.\n    stats       Prints the vital runtime stats.\n    trace       Runs the runtime tracer for 5 secs and launches \"go tool trace\".\n    pprof-heap  Reads the heap profile and launches \"go tool pprof\".\n    pprof-cpu   Reads the CPU profile and launches \"go tool pprof\".\n\nAll commands with a <exec|pid|addr> argument require the agent running on the Go\nprocess. The symbol \"*\" next to the process name indicates the process runs the\nagent."

/-- Modelled from the spec: the remote-command dispatch table `cmds` is
referenced by `main` but defined outside this repository's single source
file (§4.5 treats it as an opaque table keyed by command name); its keys are
the commands listed by the help text. -/
def cmds : List String :=
  ["stack", "gc", "setgc", "memstats", "version", "stats", "trace", "pprof-heap", "pprof-cpu"]

/-- Numeric value of a non-empty all-digit character list, `none` otherwise. -/
def digitsVal (cs : List Char) : Option Nat :=
  if cs ≠ [] ∧ cs.all Char.isDigit then
    some (cs.foldl (fun a c => a * 10 + (c.toNat - 48)) 0)
  else none

/-- Embedding of Go `strconv.Atoi` as used by `main` (src/main.go line 76):
an optional sign followed by one or more decimal digits parses, anything
else errors (integer overflow, which also errors in Go, is not modelled). -/
def atoi (s : String) : Option Int :=
  match s.data with
  | '+' :: rest => (digitsVal rest).map (fun n => (n : Int))
  | '-' :: rest => (digitsVal rest).map (fun n => -(n : Int))
  | cs => (digitsVal cs).map (fun n => (n : Int))

/-- Observable outcome of one invocation of `main` (src/main.go lines
67-120): which mode runs, a terminal usage exit (captured with the text it
writes to standard output and standard error and its exit status), or a
dispatched remote command. -/
inductive MainOutcome where
  | listMode : MainOutcome
  | procInfo (pid : Int) : MainOutcome
  | treeMode : MainOutcome
  | usageExit (stdoutText stderrText : String) (exitCode : Nat) : MainOutcome
  | runCmd (cmd target : String) (params : List String) : MainOutcome
deriving DecidableEq, Repr

/-- Embedding of `usage` (src/main.go lines 239-245): an optional message
line on standard output, the full help text plus newline on standard error,
exit status 1. -/
def usage (msg : String) : MainOutcome :=
  MainOutcome.usageExit (if msg = "" then "" else "dcrps: " ++ msg ++ "\n")
    (helpText ++ "\n") 1

/-- Embedding of the command-line dispatch of `main` (src/main.go lines
67-120).  `args` is the full `os.Args` (program name first); the startup
name-to-PID table is passed as a lookup function. -/
def dcrpsMain (args : List String) (nameToPid : String → Option Int) : MainOutcome :=
  match args with
  | [] => .listMode
  | [_] => .listMode
  | _ :: cmd :: rest =>
    match atoi cmd with
    | some pid => .procInfo pid
    | none =>
      if cmd = "help" then usage ""
      else if cmd = "tree" then .treeMode
      else if cmds.contains cmd then
        match rest with
        | [] => usage "Missing PID or address."
        | target :: params => .runCmd cmd target params
      else
        match nameToPid cmd with
        | some pid => .procInfo pid
        | none => usage "unknown subcommand"

/-- Pointwise update of the name-to-PID table. -/
def updateNameMap (m : String → Option Int) (k : String) (v : Option Int) : String → Option Int :=
  fun j => if j = k then v else m j

/-- Embedding of `init` (src/main.go lines 23-36): build the startup
`nameToPid` table from the process snapshot; a family executable name seen
again maps to -1 (multiple processes with this name). -/
def buildNameToPid (ps : List P) : String → Option Int :=
  ps.foldl
    (fun m p =>
      if hasPre p.Exec dcrPrefix then
        match m p.Exec with
        | some _ => updateNameMap m p.Exec (some (-1))
        | none => updateNameMap m p.Exec (some p.PID)
      else m)
    (fun _ => none)

/-! Unfolding equations of the renderer. -/

theorem construct_zero (pstree : Int → List P) (ppid : Int) (p : P) (seen : List Int) :
    constructProcessTree pstree 0 ppid p seen = none := rfl

theorem construct_succ (pstree : Int → List P) (fuel : Nat) (ppid : Int) (p : P) (seen : List Int) :
    constructProcessTree pstree (fuel+1) ppid p seen =
      if ppid ∈ seen then some (seen, none)
      else
        match childLoop (constructProcessTree pstree fuel) (pstree ppid) (ppid :: seen) with
        | none => none
        | some (seen2, kids) =>
          if ppid ≠ p.PPID then
            some (seen2, some (Tree.node (if p.Agent then some "*" else none)
              (toString ppid ++ " (" ++ p.Exec ++ ")" ++ " \x7b" ++ p.BuildVersion ++ "\x7d") kids))
          else
            some (seen2, some (Tree.node none (toString ppid) kids)) := rfl

theorem childLoop_nil (go : Int → P → List Int → Option (List Int × Option Tree)) (seen : List Int) :
    childLoop go [] seen = some (seen, []) := rfl

theorem childLoop_cons (go : Int → P → List Int → Option (List Int × Option Tree))
    (c : P) (rest : List P) (seen : List Int) :
    childLoop go (c :: rest) seen =
      match go c.PID c seen with
      | none => none
      | some (s1, t) =>
        match childLoop go rest s1 with
        | none => none
        | some (s2, ts) => some (s2, t.toList ++ ts) := rfl

/-! Counting lemmas. -/

theorem countNodesList_append (a b : List Tree) :
    countNodesList (a ++ b) = countNodesList a + countNodesList b := by
  induction a with
  | nil => simp [countNodesList]
  | cons t ts ih => simp [countNodesList, ih]; omega

theorem countNodesList_toList (t : Option Tree) :
    countNodesList t.toList = countNodesOpt t := by
  cases t <;> simp [countNodesList, countNodesOpt, Option.toList]

/-! The visited set only grows (every call returns a supersequence of the
visited set it was given). -/

theorem childLoop_suffix {go : Int → P → List Int → Option (List Int × Option Tree)}
    (hgo : ∀ k c seen out, go k c seen = some out → seen <:+ out.1) :
    ∀ (cs : List P) (seen : List Int) (out : List Int × List Tree),
      childLoop go cs seen = some out → seen <:+ out.1 := by
  intro cs
  induction cs with
  | nil =>
    intro seen out h
    rw [childLoop_nil] at h
    cases h
    exact List.suffix_refl _
  | cons c rest ih =>
    intro seen out h
    rw [childLoop_cons] at h
    cases hc : go c.PID c seen with
    | none => rw [hc] at h; cases h
    | some r1 =>
      rw [hc] at h
      obtain ⟨s1, t⟩ := r1
      cases hr : childLoop go rest s1 with
      | none => simp [hr] at h
      | some r2 =>
        simp only [hr] at h
        obtain ⟨s2, ts⟩ := r2
        cases h
        exact (hgo _ _ _ _ hc).trans (ih s1 (s2, ts) hr)

theorem construct_suffix :
    ∀ (fuel : Nat) (pstree : Int → List P) (ppid : Int) (p : P) (seen : List Int)
      (out : List Int × Option Tree),
      constructProcessTree pstree fuel ppid p seen = some out → seen <:+ out.1 := by
  intro fuel
  induction fuel with
  | zero => intro pstree ppid p seen out h; cases h
  | succ fuel ih =>
    intro pstree ppid p seen out h
    rw [construct_succ] at h
    by_cases hs : ppid ∈ seen
    · rw [if_pos hs] at h
      cases h
      exact List.suffix_refl _
    · rw [if_neg hs] at h
      cases hcl : childLoop (constructProcessTree pstree fuel) (pstree ppid) (ppid :: seen) with
      | none => rw [hcl] at h; cases h
      | some r =>
        rw [hcl] at h
        obtain ⟨s2, kids⟩ := r
        dsimp only at h
        have hsfx : (ppid :: seen) <:+ s2 :=
          childLoop_suffix (fun k c s o hh => ih pstree k c s o hh) _ _ _ hcl
        have hsfx' : seen <:+ s2 := (List.suffix_cons ppid seen).trans hsfx
        by_cases hne : ppid ≠ p.PPID
        · rw [if_pos hne] at h; cases h; exact hsfx'
        · rw [if_neg hne] at h; cases h; exact hsfx'

/-! The visited set never records the same parent identifier twice. -/

theorem childLoop_nodup {go : Int → P → List Int → Option (List Int × Option Tree)}
    (hgo : ∀ k c seen out, go k c seen = some out → seen.Nodup → out.1.Nodup) :
    ∀ (cs : List P) (seen : List Int) (out : List Int × List Tree),
      childLoop go cs seen = some out → seen.Nodup → out.1.Nodup := by
  intro cs
  induction cs with
  | nil =>
    intro seen out h hnd
    rw [childLoop_nil] at h
    cases h
    exact hnd
  | cons c rest ih =>
    intro seen out h hnd
    rw [childLoop_cons] at h
    cases hc : go c.PID c seen with
    | none => rw [hc] at h; cases h
    | some r1 =>
      rw [hc] at h
      obtain ⟨s1, t⟩ := r1
      cases hr : childLoop go rest s1 with
      | none => simp [hr] at h
      | some r2 =>
        simp only [hr] at h
        obtain ⟨s2, ts⟩ := r2
        cases h
        exact ih s1 (s2, ts) hr (hgo _ _ _ _ hc hnd)

theorem construct_nodup :
    ∀ (fuel : Nat) (pstree : Int → List P) (ppid : Int) (p : P) (seen : List Int)
      (out : List Int × Option Tree),
      constructProcessTree pstree fuel ppid p seen = some out → seen.Nodup → out.1.Nodup := by
  intro fuel
  induction fuel with
  | zero => intro pstree ppid p seen out h; cases h
  | succ fuel ih =>
    intro pstree ppid p seen out h hnd
    rw [construct_succ] at h
    by_cases hs : ppid ∈ seen
    · rw [if_pos hs] at h; cases h; exact hnd
    · rw [if_neg hs] at h
      cases hcl : childLoop (constructProcessTree pstree fuel) (pstree ppid) (ppid :: seen) with
      | none => rw [hcl] at h; cases h
      | some r =>
        rw [hcl] at h
        obtain ⟨s2, kids⟩ := r
        dsimp only at h
        have hnd2 : (ppid :: seen).Nodup := List.nodup_cons.mpr ⟨hs, hnd⟩
        have hout : s2.Nodup :=
          childLoop_nodup (fun k c s o hh => ih pstree k c s o hh) _ _ _ hcl hnd2
        by_cases hne : ppid ≠ p.PPID
        · rw [if_pos hne] at h; cases h; exact hout
        · rw [if_neg hne] at h; cases h; exact hout

/-! One node is created per newly visited identifier: the growth of the
visited set equals the number of nodes added. -/

theorem childLoop_count {go : Int → P → List Int → Option (List Int × Option Tree)}
    (hgo : ∀ k c seen out, go k c seen = some out →
      out.1.length = countNodesOpt out.2 + seen.length) :
    ∀ (cs : List P) (seen : List Int) (out : List Int × List Tree),
      childLoop go cs seen = some out →
      out.1.length = countNodesList out.2 + seen.length := by
  intro cs
  induction cs with
  | nil =>
    intro seen out h
    rw [childLoop_nil] at h
    cases h
    simp [countNodesList]
  | cons c rest ih =>
    intro seen out h
    rw [childLoop_cons] at h
    cases hc : go c.PID c seen with
    | none => rw [hc] at h; cases h
    | some r1 =>
      rw [hc] at h
      obtain ⟨s1, t⟩ := r1
      cases hr : childLoop go rest s1 with
      | none => simp [hr] at h
      | some r2 =>
        simp only [hr] at h
        obtain ⟨s2, ts⟩ := r2
        cases h
        have h1 := hgo _ _ _ _ hc
        have h2 := ih s1 (s2, ts) hr
        simp only at h1 h2 ⊢
        rw [countNodesList_append, countNodesList_toList]
        omega

theorem construct_count :
    ∀ (fuel : Nat) (pstree : Int → List P) (ppid : Int) (p : P) (seen : List Int)
      (out : List Int × Option Tree),
      constructProcessTree pstree fuel ppid p seen = some out →
      out.1.length = countNodesOpt out.2 + seen.length := by
  intro fuel
  induction fuel with
  | zero => intro pstree ppid p seen out h; cases h
  | succ fuel ih =>
    intro pstree ppid p seen out h
    rw [construct_succ] at h
    by_cases hs : ppid ∈ seen
    · rw [if_pos hs] at h; cases h; simp [countNodesOpt]
    · rw [if_neg hs] at h
      cases hcl : childLoop (constructProcessTree pstree fuel) (pstree ppid) (ppid :: seen) with
      | none => rw [hcl] at h; cases h
      | some r =>
        rw [hcl] at h
        obtain ⟨s2, kids⟩ := r
        dsimp only at h
        have hcnt : s2.length = countNodesList kids + (ppid :: seen).length :=
          childLoop_count (fun k c s o hh => ih pstree k c s o hh) _ _ _ hcl
        simp only [List.length_cons] at hcnt
        by_cases hne : ppid ≠ p.PPID
        · rw [if_pos hne] at h; cases h
          simp only [countNodesOpt, countNodes]
          omega
        · rw [if_neg hne] at h; cases h
          simp only [countNodesOpt, countNodes]
          omega

/-! Characterization of the snapshot index: the bucket keyed by `k` is
exactly the order-preserving sublist of family records reporting parent
`k`. -/

theorem buildPstree_aux (k : Int) :
    ∀ (ps : List P) (m : Int → List P),
      (ps.foldl
        (fun m p =>
          if hasPre p.Exec dcrPrefix then updateMap m p.PPID (m p.PPID ++ [p]) else m)
        m) k
      = m k ++ ps.filter (fun p => hasPre p.Exec dcrPrefix && p.PPID == k) := by
  intro ps
  induction ps with
  | nil => intro m; simp
  | cons p rest ih =>
    intro m
    simp only [List.foldl_cons, List.filter_cons]
    by_cases hp : hasPre p.Exec dcrPrefix
    · rw [if_pos hp, ih]
      by_cases hk : p.PPID = k
      · subst hk
        simp [updateMap, hp]
      · simp [updateMap, hp, hk, Ne.symm hk]
    · rw [if_neg hp, ih]
      simp [hp]

theorem buildPstree_spec (ps : List P) (k : Int) :
    buildPstree ps k
      = ps.filter (fun p => hasPre p.Exec dcrPrefix && p.PPID == k) := by
  have h := buildPstree_aux k ps (fun _ => [])
  simpa [buildPstree] using h

/-! Fuel sufficiency: a measure on the unvisited family identifiers bounds
the recursion depth the render can reach, so a computable amount of fuel
always suffices --- this is the termination argument for the unbounded Go
recursion. -/

/-- Number of identifiers of `K` not yet in the visited set. -/
def nRem (K : Finset Int) (seen : List Int) : Nat := (K \ seen.toFinset).card

theorem nRem_mono (K : Finset Int) {s1 s2 : List Int} (h : ∀ x, x ∈ s1 → x ∈ s2) :
    nRem K s2 ≤ nRem K s1 := by
  apply Finset.card_le_card
  intro x hx
  simp only [Finset.mem_sdiff, List.mem_toFinset] at hx ⊢
  exact ⟨hx.1, fun hmem => hx.2 (h x hmem)⟩

theorem nRem_cons_of_mem {K : Finset Int} {k : Int} {seen : List Int}
    (hk : k ∈ K) (hs : k ∉ seen) : nRem K (k :: seen) + 1 = nRem K seen := by
  have hmem : k ∈ K \ seen.toFinset := by
    simp only [Finset.mem_sdiff, List.mem_toFinset]
    exact ⟨hk, hs⟩
  have hset : K \ (k :: seen).toFinset = (K \ seen.toFinset).erase k := by
    ext x
    simp only [List.toFinset_cons, Finset.mem_sdiff, Finset.mem_insert, Finset.mem_erase,
      List.mem_toFinset]
    tauto
  have hcard : 1 ≤ (K \ seen.toFinset).card := Finset.card_pos.mpr ⟨k, hmem⟩
  rw [nRem, nRem, hset, Finset.card_erase_of_mem hmem]
  omega

theorem nRem_cons_of_not_mem {K : Finset Int} {k : Int} (hk : k ∉ K) (seen : List Int) :
    nRem K (k :: seen) = nRem K seen := by
  rw [nRem, nRem]
  congr 1
  ext x
  simp only [List.toFinset_cons, Finset.mem_sdiff, Finset.mem_insert, List.mem_toFinset]
  constructor
  · rintro ⟨hxK, hx⟩
    exact ⟨hxK, fun hm => hx (Or.inr hm)⟩
  · rintro ⟨hxK, hx⟩
    refine ⟨hxK, ?_⟩
    rintro (rfl | hm)
    · exact hk hxK
    · exact hx hm

theorem construct_isSome :
    ∀ (fuel : Nat) (pstree : Int → List P) (K : Finset Int),
      (∀ k c, c ∈ pstree k → c.PID ∈ K) →
      ∀ (ppid : Int) (p : P) (seen : List Int),
        2 * nRem K seen + (if ppid ∈ seen then 0 else if ppid ∈ K then 1 else 2) < fuel →
        (constructProcessTree pstree fuel ppid p seen).isSome := by
  intro fuel
  induction fuel with
  | zero => intro pstree K hK ppid p seen hlt; omega
  | succ fuel ih =>
    intro pstree K hK ppid p seen hlt
    rw [construct_succ]
    by_cases hs : ppid ∈ seen
    · rw [if_pos hs]; rfl
    · rw [if_neg hs]
      have hchild : ∀ (cs : List P) (seen' : List Int),
          (∀ c ∈ cs, c.PID ∈ K) → 2 * nRem K seen' + 2 ≤ fuel →
          (childLoop (constructProcessTree pstree fuel) cs seen').isSome := by
        intro cs
        induction cs with
        | nil => intro seen' _ _; rw [childLoop_nil]; rfl
        | cons c rest ihc =>
          intro seen' hcs hb
          have hcK : c.PID ∈ K := hcs c (List.mem_cons_self c rest)
          have h1 : (constructProcessTree pstree fuel c.PID c seen').isSome := by
            apply ih pstree K hK
            by_cases hcm : c.PID ∈ seen'
            · rw [if_pos hcm]; omega
            · rw [if_neg hcm, if_pos hcK]; omega
          obtain ⟨⟨s1, t⟩, hc⟩ := Option.isSome_iff_exists.mp h1
          have hsfx : seen' <:+ s1 := construct_suffix fuel pstree c.PID c seen' (s1, t) hc
          have hmono : nRem K s1 ≤ nRem K seen' :=
            nRem_mono K (fun x hx => hsfx.subset hx)
          have h2 : (childLoop (constructProcessTree pstree fuel) rest s1).isSome :=
            ihc s1 (fun c' hc' => hcs c' (List.mem_cons_of_mem c hc')) (by omega)
          obtain ⟨⟨s2, ts⟩, hr⟩ := Option.isSome_iff_exists.mp h2
          rw [childLoop_cons, hc]
          dsimp only
          rw [hr]
          rfl
      have hbound : 2 * nRem K (ppid :: seen) + 2 ≤ fuel := by
        rw [if_neg hs] at hlt
        by_cases hk : ppid ∈ K
        · rw [if_pos hk] at hlt
          have := nRem_cons_of_mem hk hs
          omega
        · rw [if_neg hk] at hlt
          have := nRem_cons_of_not_mem hk seen
          omega
      have h3 := hchild (pstree ppid) (ppid :: seen) (fun c hc => hK ppid c hc) hbound
      obtain ⟨⟨s2, kids⟩, hcl⟩ := Option.isSome_iff_exists.mp h3
      rw [hcl]
      dsimp only
      by_cases hne : ppid ≠ p.PPID
      · rw [if_pos hne]; rfl
      · rw [if_neg hne]; rfl

/-! The top-level loop: the same three invariants, plus sufficiency. -/

theorem displayLoop_nil (pstree : Int → List P) (fuel : Nat) (seen : List Int) :
    displayLoop pstree fuel [] seen = some (seen, []) := rfl

theorem displayLoop_cons (pstree : Int → List P) (fuel : Nat) (p : P) (rest : List P)
    (seen : List Int) :
    displayLoop pstree fuel (p :: rest) seen =
      if hasPre p.Exec dcrPrefix then
        match constructProcessTree pstree fuel p.PPID p seen with
        | none => none
        | some (s1, t) =>
          match displayLoop pstree fuel rest s1 with
          | none => none
          | some (s2, ts) => some (s2, t.toList ++ ts)
      else displayLoop pstree fuel rest seen := rfl

theorem displayLoop_suffix (pstree : Int → List P) (fuel : Nat) :
    ∀ (ps' : List P) (seen : List Int) (out : List Int × List Tree),
      displayLoop pstree fuel ps' seen = some out → seen <:+ out.1 := by
  intro ps'
  induction ps' with
  | nil =>
    intro seen out h
    rw [displayLoop_nil] at h
    cases h
    exact List.suffix_refl _
  | cons p rest ih =>
    intro seen out h
    rw [displayLoop_cons] at h
    by_cases hp : hasPre p.Exec dcrPrefix
    · rw [if_pos hp] at h
      cases hc : constructProcessTree pstree fuel p.PPID p seen with
      | none => rw [hc] at h; cases h
      | some r1 =>
        rw [hc] at h
        obtain ⟨s1, t⟩ := r1
        cases hr : displayLoop pstree fuel rest s1 with
        | none => simp [hr] at h
        | some r2 =>
          simp only [hr] at h
          obtain ⟨s2, ts⟩ := r2
          cases h
          exact (construct_suffix fuel pstree p.PPID p seen (s1, t) hc).trans (ih s1 (s2, ts) hr)
    · rw [if_neg hp] at h
      exact ih seen out h

theorem displayLoop_nodup (pstree : Int → List P) (fuel : Nat) :
    ∀ (ps' : List P) (seen : List Int) (out : List Int × List Tree),
      displayLoop pstree fuel ps' seen = some out → seen.Nodup → out.1.Nodup := by
  intro ps'
  induction ps' with
  | nil =>
    intro seen out h hnd
    rw [displayLoop_nil] at h
    cases h
    exact hnd
  | cons p rest ih =>
    intro seen out h hnd
    rw [displayLoop_cons] at h
    by_cases hp : hasPre p.Exec dcrPrefix
    · rw [if_pos hp] at h
      cases hc : constructProcessTree pstree fuel p.PPID p seen with
      | none => rw [hc] at h; cases h
      | some r1 =>
        rw [hc] at h
        obtain ⟨s1, t⟩ := r1
        cases hr : displayLoop pstree fuel rest s1 with
        | none => simp [hr] at h
        | some r2 =>
          simp only [hr] at h
          obtain ⟨s2, ts⟩ := r2
          cases h
          exact ih s1 (s2, ts) hr (construct_nodup fuel pstree p.PPID p seen (s1, t) hc hnd)
    · rw [if_neg hp] at h
      exact ih seen out h hnd

theorem displayLoop_count (pstree : Int → List P) (fuel : Nat) :
    ∀ (ps' : List P) (seen : List Int) (out : List Int × List Tree),
      displayLoop pstree fuel ps' seen = some out →
      out.1.length = countNodesList out.2 + seen.length := by
  intro ps'
  induction ps' with
  | nil =>
    intro seen out h
    rw [displayLoop_nil] at h
    cases h
    simp [countNodesList]
  | cons p rest ih =>
    intro seen out h
    rw [displayLoop_cons] at h
    by_cases hp : hasPre p.Exec dcrPrefix
    · rw [if_pos hp] at h
      cases hc : constructProcessTree pstree fuel p.PPID p seen with
      | none => rw [hc] at h; cases h
      | some r1 =>
        rw [hc] at h
        obtain ⟨s1, t⟩ := r1
        cases hr : displayLoop pstree fuel rest s1 with
        | none => simp [hr] at h
        | some r2 =>
          simp only [hr] at h
          obtain ⟨s2, ts⟩ := r2
          cases h
          have h1 := construct_count fuel pstree p.PPID p seen (s1, t) hc
          have h2 := ih s1 (s2, ts) hr
          simp only at h1 h2 ⊢
          rw [countNodesList_append, countNodesList_toList]
          omega
    · rw [if_neg hp] at h
      exact ih seen out h

theorem displayLoop_isSome (pstree : Int → List P) (K : Finset Int)
    (hK : ∀ k c, c ∈ pstree k → c.PID ∈ K) (fuel : Nat) :
    ∀ (ps' : List P) (seen : List Int),
      2 * nRem K seen + 3 ≤ fuel → (displayLoop pstree fuel ps' seen).isSome := by
  intro ps'
  induction ps' with
  | nil => intro seen _; rw [displayLoop_nil]; rfl
  | cons p rest ih =>
    intro seen hb
    rw [displayLoop_cons]
    by_cases hp : hasPre p.Exec dcrPrefix
    · rw [if_pos hp]
      have h1 : (constructProcessTree pstree fuel p.PPID p seen).isSome := by
        apply construct_isSome fuel pstree K hK
        by_cases hm : p.PPID ∈ seen
        · rw [if_pos hm]; omega
        · rw [if_neg hm]
          by_cases hk : p.PPID ∈ K
          · rw [if_pos hk]; omega
          · rw [if_neg hk]; omega
      obtain ⟨⟨s1, t⟩, hc⟩ := Option.isSome_iff_exists.mp h1
      have hsfx : seen <:+ s1 := construct_suffix fuel pstree p.PPID p seen (s1, t) hc
      have hmono : nRem K s1 ≤ nRem K seen := nRem_mono K (fun x hx => hsfx.subset hx)
      have h2 : (displayLoop pstree fuel rest s1).isSome := ih s1 (by omega)
      obtain ⟨⟨s2, ts⟩, hr⟩ := Option.isSome_iff_exists.mp h2
      rw [hc]
      dsimp only
      rw [hr]
      rfl
    · rw [if_neg hp]
      exact ih seen hb

/-! Guarantees on the whole render. -/

/-- The finite set of family PIDs of a snapshot, bounding the identifiers
through which the renderer can ever recurse. -/
def familyPIDs (ps : List P) : Finset Int :=
  ((ps.filter (fun p => hasPre p.Exec dcrPrefix)).map P.PID).toFinset

theorem buildPstree_PIDs (ps : List P) :
    ∀ k c, c ∈ buildPstree ps k → c.PID ∈ familyPIDs ps := by
  intro k c hc
  rw [buildPstree_spec] at hc
  rw [List.mem_filter] at hc
  obtain ⟨hmem, hcond⟩ := hc
  simp only [Bool.and_eq_true] at hcond
  have h1 : hasPre c.Exec dcrPrefix = true := hcond.1
  simp only [familyPIDs, List.mem_toFinset, List.mem_map]
  exact ⟨c, List.mem_filter.mpr ⟨hmem, h1⟩, rfl⟩

theorem familyPIDs_card_le (ps : List P) : (familyPIDs ps).card ≤ ps.length := by
  calc (familyPIDs ps).card
      ≤ ((ps.filter (fun p => hasPre p.Exec dcrPrefix)).map P.PID).length :=
        List.toFinset_card_le _
    _ = (ps.filter (fun p => hasPre p.Exec dcrPrefix)).length := List.length_map _ _
    _ ≤ ps.length := List.length_filter_le _ _

theorem renderProcessTree_isSome (ps : List P) : (renderProcessTree ps).isSome := by
  have hb : 2 * nRem (familyPIDs ps) [] + 3 ≤ defaultFuel ps := by
    have h1 : nRem (familyPIDs ps) [] = (familyPIDs ps).card := by
      simp [nRem]
    have h2 := familyPIDs_card_le ps
    simp only [defaultFuel]
    omega
  have h := displayLoop_isSome (buildPstree ps) (familyPIDs ps) (buildPstree_PIDs ps)
    (defaultFuel ps) ps [] hb
  obtain ⟨⟨seen, kids⟩, hdl⟩ := Option.isSome_iff_exists.mp h
  rw [renderProcessTree, displayProcessTree, hdl]
  rfl

theorem renderProcessTree_nodup (ps : List P) (seen : List Int) (t : Tree)
    (h : renderProcessTree ps = some (seen, t)) : seen.Nodup := by
  rw [renderProcessTree, displayProcessTree] at h
  cases hdl : displayLoop (buildPstree ps) (defaultFuel ps) ps [] with
  | none => rw [hdl] at h; cases h
  | some r =>
    rw [hdl] at h
    obtain ⟨s, kids⟩ := r
    have hnd := displayLoop_nodup (buildPstree ps) (defaultFuel ps) ps [] (s, kids) hdl
      List.nodup_nil
    cases h
    exact hnd

theorem renderProcessTree_count (ps : List P) (seen : List Int) (t : Tree)
    (h : renderProcessTree ps = some (seen, t)) :
    countNodesList (Tree.children t) = seen.length := by
  rw [renderProcessTree, displayProcessTree] at h
  cases hdl : displayLoop (buildPstree ps) (defaultFuel ps) ps [] with
  | none => rw [hdl] at h; cases h
  | some r =>
    rw [hdl] at h
    obtain ⟨s, kids⟩ := r
    have hcnt := displayLoop_count (buildPstree ps) (defaultFuel ps) ps [] (s, kids) hdl
    simp only [List.length_nil] at hcnt
    cases h
    simp only [Tree.children]
    omega

/-! Claim theorems. -/

/-- C1: for every finite list of process records, including lists with
self-referential (pid = ppid) or mutually cyclic parent references, the tree
renderer terminates (the computable depth bound `defaultFuel` always
suffices, so the bounded run returns a result instead of exhausting its
bound), and each distinct parent identifier is expanded at most once across
the whole render: the shared visited set, which records exactly the
identifiers expanded, is checked before marking and before any recursion and
ends up duplicate-free. -/
theorem c1_renderer_terminates_visits_once (ps : List P) :
    ∃ seen t, renderProcessTree ps = some (seen, t) ∧ seen.Nodup := by
  obtain ⟨⟨seen, t⟩, h⟩ := Option.isSome_iff_exists.mp (renderProcessTree_isSome ps)
  exact ⟨seen, t, h, renderProcessTree_nodup ps seen t h⟩

/-- C2 counterexample: the acyclic one-record snapshot (pid 1, ppid 0,
executable "dcrd") renders two nodes below the synthetic top node (the bare
branch for the unmatched parent key 0 plus the record's own node), while the
filtered input has exactly one record, so the rendered node count does not
equal the filtered record count. -/
theorem c2_counterexample_count_mismatch :
    renderProcessTree [⟨1, 0, "dcrd", "", "", false⟩]
      = some ([1, 0], Tree.node none "..."
          [Tree.node none "0" [Tree.node none "1 (dcrd) \x7b\x7d" []]])
    ∧ countNodesList [Tree.node none "0" [Tree.node none "1 (dcrd) \x7b\x7d" []]] = 2
    ∧ (([⟨1, 0, "dcrd", "", "", false⟩] : List P).filter
        (fun p => hasPre p.Exec dcrPrefix)).length = 1 :=
  ⟨rfl, rfl, rfl⟩

/-- C2 amended: for every input list (acyclic or not), the total number of
rendered tree nodes (leaves plus branches, excluding the synthetic top node)
equals the number of distinct parent identifiers marked visited during the
render --- one node per newly visited identifier --- which can differ from
the filtered record count: an unmatched parent key adds a bare extra node,
and a record whose own pid was already visited through another path is not
rendered as a node of its own. -/
theorem c2_amended_node_count_eq_visited (ps : List P) (seen : List Int) (t : Tree)
    (h : renderProcessTree ps = some (seen, t)) :
    countNodesList (Tree.children t) = seen.length :=
  renderProcessTree_count ps seen t h

theorem c2_amended_node_count_eq_visited_witness :
    countNodesList (Tree.children (Tree.node none "..."
      [Tree.node none "0" [Tree.node none "1 (dcrd) \x7b\x7d" []]])) = 2 :=
  c2_amended_node_count_eq_visited [⟨1, 0, "dcrd", "", "", false⟩] [1, 0]
    (Tree.node none "..." [Tree.node none "0" [Tree.node none "1 (dcrd) \x7b\x7d" []]]) rfl

/-- C3 counterexample: the snapshot with the single record (pid 1, ppid 0,
executable "dcrw"), which is not self-parented, still renders a node whose
label is the bare numeral "0" (the top-level call compares its key against
the record's own ppid, which always matches there), refuting "a bare numeric
label is emitted exactly when the record is self-parented". -/
theorem c3_counterexample_bare_label :
    renderProcessTree [⟨1, 0, "dcrw", "", "", false⟩]
      = some ([1, 0], Tree.node none "..."
          [Tree.node none "0" [Tree.node none "1 (dcrw) \x7b\x7d" []]])
    ∧ Tree.value (Tree.node none "0" [Tree.node none "1 (dcrw) \x7b\x7d" []])
        = toString (0 : Int)
    ∧ (⟨1, 0, "dcrw", "", "", false⟩ : P).PPID ≠ (⟨1, 0, "dcrw", "", "", false⟩ : P).PID :=
  ⟨rfl, rfl, by decide⟩

/-- C3 amended: a node-emitting call emits the bare numeric label of its
recursion key exactly when the key equals the record's ppid.  The top-level
loop passes the record's own ppid as key, so every top-level node is bare;
a recursive (child) call passes the record's pid as key, so a child node is
bare exactly when the record is self-parented; in every other case the label
is "<key> (<execName>) {<buildVersion>}". -/
theorem c3_amended_label_shape (pstree : Int → List P) (fuel : Nat) (ppid : Int) (p : P)
    (seen s2 : List Int) (t2 : Option Tree)
    (hs : ppid ∉ seen)
    (h : constructProcessTree pstree (fuel+1) ppid p seen = some (s2, t2)) :
    ∃ m kids, t2 = some (Tree.node m
      (if ppid = p.PPID then toString ppid
       else toString ppid ++ " (" ++ p.Exec ++ ")" ++ " \x7b" ++ p.BuildVersion ++ "\x7d") kids) := by
  rw [construct_succ, if_neg hs] at h
  cases hcl : childLoop (constructProcessTree pstree fuel) (pstree ppid) (ppid :: seen) with
  | none => rw [hcl] at h; cases h
  | some r =>
    rw [hcl] at h
    obtain ⟨s', kids⟩ := r
    dsimp only at h
    by_cases hne : ppid ≠ p.PPID
    · rw [if_pos hne] at h
      cases h
      exact ⟨_, kids, by rw [if_neg hne]⟩
    · rw [if_neg hne] at h
      cases h
      exact ⟨none, kids, by rw [if_pos (not_not.mp hne)]⟩

theorem c3_amended_label_shape_witness :
    ∃ m kids, (some (Tree.node none "7 (dcrd) \x7b\x7d" []) : Option Tree)
      = some (Tree.node m
          (if (7 : Int) = (0 : Int) then toString (7 : Int)
           else toString (7 : Int) ++ " (" ++ "dcrd" ++ ")" ++ " \x7b" ++ "" ++ "\x7d") kids) :=
  c3_amended_label_shape (fun _ => []) 1 7 ⟨1, 0, "dcrd", "", "", false⟩ [] [7]
    (some (Tree.node none "7 (dcrd) \x7b\x7d" [])) (by decide) rfl

/-- C4 counterexample: the self-parented record (pid 5, ppid 5, executable
"dcrx") with its agent flag set renders as a plain bare branch with no meta
marker --- the starred attachment happens only in the composed-label case ---
refuting "starred if and only if the agent flag is true". -/
theorem c4_counterexample_agent_unstarred :
    renderProcessTree [⟨5, 5, "dcrx", "", "", true⟩]
      = some ([5], Tree.node none "..." [Tree.node none "5" []])
    ∧ (⟨5, 5, "dcrx", "", "", true⟩ : P).Agent = true
    ∧ Tree.metaOf (Tree.node none "5" []) = none :=
  ⟨rfl, rfl, rfl⟩

/-- C4 amended: a rendered node carries the distinguished "has agent"
(starred) marker if and only if the record's agent flag is true and the
recursion key differs from the record's ppid (the composed-label case); in
particular a non-agent record is never starred, and an agent-flagged record
rendered as a bare branch (key equal to its ppid, e.g. a self-parented
record) is not starred either. -/
theorem c4_amended_star_iff (pstree : Int → List P) (fuel : Nat) (ppid : Int) (p : P)
    (seen s2 : List Int) (t : Tree)
    (hs : ppid ∉ seen)
    (h : constructProcessTree pstree (fuel+1) ppid p seen = some (s2, some t)) :
    Tree.metaOf t = some "*" ↔ (p.Agent = true ∧ ppid ≠ p.PPID) := by
  rw [construct_succ, if_neg hs] at h
  cases hcl : childLoop (constructProcessTree pstree fuel) (pstree ppid) (ppid :: seen) with
  | none => rw [hcl] at h; cases h
  | some r =>
    rw [hcl] at h
    obtain ⟨s', kids⟩ := r
    dsimp only at h
    by_cases hne : ppid ≠ p.PPID
    · rw [if_pos hne] at h
      cases h
      cases hA : p.Agent
      · simp [Tree.metaOf, hA]
      · simp [Tree.metaOf, hA, hne]
    · rw [if_neg hne] at h
      cases h
      simp [Tree.metaOf, hne]

theorem c4_amended_star_iff_witness :
    Tree.metaOf (Tree.node (some "*") "7 (dcrd) \x7b\x7d" []) = some "*"
      ↔ ((true : Bool) = true ∧ (7 : Int) ≠ (0 : Int)) :=
  c4_amended_star_iff (fun _ => []) 1 7 ⟨1, 0, "dcrd", "", "", true⟩ [] [7]
    (Tree.node (some "*") "7 (dcrd) \x7b\x7d" []) (by decide) rfl

/-- C6: the snapshot index maps every parent identifier `k` to exactly the
family-filtered records whose ppid is `k`, in original enumeration order
(the bucket is the order-preserving sublist); a record appears in a bucket
only under its own ppid and only when its executable name carries the family
prefix, so non-family records never appear in any bucket; and the empty
input yields the empty mapping with no error. -/
theorem c6_snapshot_index (ps : List P) (k : Int) :
    buildPstree ps k = ps.filter (fun p => hasPre p.Exec dcrPrefix && p.PPID == k)
    ∧ (∀ p, p ∈ buildPstree ps k →
        p.PPID = k ∧ hasPre p.Exec dcrPrefix = true ∧ p ∈ ps)
    ∧ (∀ p, hasPre p.Exec dcrPrefix = false → p ∉ buildPstree ps k)
    ∧ buildPstree ([] : List P) k = [] := by
  refine ⟨buildPstree_spec ps k, ?_, ?_, rfl⟩
  · intro p hp
    rw [buildPstree_spec, List.mem_filter] at hp
    obtain ⟨hmem, hcond⟩ := hp
    simp only [Bool.and_eq_true, beq_iff_eq] at hcond
    exact ⟨hcond.2, hcond.1, hmem⟩
  · intro p hpre hp
    rw [buildPstree_spec, List.mem_filter] at hp
    simp only [Bool.and_eq_true] at hp
    have hcontra := hp.2.1
    rw [hpre] at hcontra
    cases hcontra

theorem c6_snapshot_index_witness :
    (⟨2, 0, "dcrd", "", "", false⟩ : P).PPID = 0
    ∧ hasPre (⟨2, 0, "dcrd", "", "", false⟩ : P).Exec dcrPrefix = true
    ∧ (⟨2, 0, "dcrd", "", "", false⟩ : P) ∈ ([⟨2, 0, "dcrd", "", "", false⟩] : List P) :=
  (c6_snapshot_index [⟨2, 0, "dcrd", "", "", false⟩] 0).2.1
    ⟨2, 0, "dcrd", "", "", false⟩ (by decide)

/-- C7: tree rendering is deterministic: for a fixed snapshot (the same
input list of records in the same order) two runs of the render produce
byte-identical text output --- the render path iterates only lists (never an
unordered map) and is a pure function of the snapshot. -/
theorem c7_render_deterministic (ps1 ps2 : List P) (h : ps1 = ps2) :
    displayOutput ps1 = displayOutput ps2 := by rw [h]

theorem c7_render_deterministic_witness :
    displayOutput [⟨1, 0, "dcrd", "", "", false⟩]
      = displayOutput [⟨1, 0, "dcrd", "", "", false⟩] :=
  c7_render_deterministic [⟨1, 0, "dcrd", "", "", false⟩] [⟨1, 0, "dcrd", "", "", false⟩] rfl

/-! Running maximum lemmas for the list-mode column widths. -/

theorem foldl_max_init_le (f : P → Nat) :
    ∀ (l : List P) (a : Nat), a ≤ l.foldl (fun acc q => max acc (f q)) a := by
  intro l
  induction l with
  | nil => intro a; exact le_refl a
  | cons q rest ih =>
    intro a
    rw [List.foldl_cons]
    exact le_trans (le_max_left a (f q)) (ih (max a (f q)))

theorem foldl_max_le (f : P → Nat) :
    ∀ (l : List P) (a : Nat) (p : P), p ∈ l →
      f p ≤ l.foldl (fun acc q => max acc (f q)) a := by
  intro l
  induction l with
  | nil => intro a p hp; cases hp
  | cons q rest ih =>
    intro a p hp
    rw [List.foldl_cons]
    rcases List.mem_cons.mp hp with rfl | hmem
    · exact le_trans (le_max_right a (f p)) (foldl_max_init_le f rest (max a (f p)))
    · exact ih (max a (f q)) p hmem

theorem foldl_max_attained (f : P → Nat) :
    ∀ (l : List P) (a : Nat),
      l.foldl (fun acc q => max acc (f q)) a = a
      ∨ ∃ p ∈ l, l.foldl (fun acc q => max acc (f q)) a = f p := by
  intro l
  induction l with
  | nil => intro a; left; rfl
  | cons q rest ih =>
    intro a
    rw [List.foldl_cons]
    rcases ih (max a (f q)) with heq | ⟨p, hp, heq⟩
    · rcases max_choice a (f q) with hm | hm
      · left; rw [heq, hm]
      · right; exact ⟨q, List.mem_cons_self q rest, by rw [heq, hm]⟩
    · right; exact ⟨p, List.mem_cons_of_mem q hp, heq⟩

/-- C8: in list mode each column width is the maximum display length of that
column's values over the family-filtered records: every value fits (no
truncation) and, unless the width is zero (empty snapshot), some record
attains it. -/
theorem c8_column_widths (ps : List P) :
    (∀ p, p ∈ dcrPs ps →
      (toString p.PID).length ≤ maxPID (dcrPs ps)
      ∧ (toString p.PPID).length ≤ maxPPID (dcrPs ps)
      ∧ p.Exec.length ≤ maxExec (dcrPs ps)
      ∧ p.BuildVersion.length ≤ maxVersion (dcrPs ps))
    ∧ (maxPID (dcrPs ps) = 0
        ∨ ∃ p ∈ dcrPs ps, maxPID (dcrPs ps) = (toString p.PID).length)
    ∧ (maxPPID (dcrPs ps) = 0
        ∨ ∃ p ∈ dcrPs ps, maxPPID (dcrPs ps) = (toString p.PPID).length)
    ∧ (maxExec (dcrPs ps) = 0
        ∨ ∃ p ∈ dcrPs ps, maxExec (dcrPs ps) = p.Exec.length)
    ∧ (maxVersion (dcrPs ps) = 0
        ∨ ∃ p ∈ dcrPs ps, maxVersion (dcrPs ps) = p.BuildVersion.length) := by
  refine ⟨?_, ?_, ?_, ?_, ?_⟩
  · intro p hp
    exact ⟨foldl_max_le (fun p => (toString p.PID).length) (dcrPs ps) 0 p hp,
      foldl_max_le (fun p => (toString p.PPID).length) (dcrPs ps) 0 p hp,
      foldl_max_le (fun p => p.Exec.length) (dcrPs ps) 0 p hp,
      foldl_max_le (fun p => p.BuildVersion.length) (dcrPs ps) 0 p hp⟩
  · exact foldl_max_attained (fun p => (toString p.PID).length) (dcrPs ps) 0
  · exact foldl_max_attained (fun p => (toString p.PPID).length) (dcrPs ps) 0
  · exact foldl_max_attained (fun p => p.Exec.length) (dcrPs ps) 0
  · exact foldl_max_attained (fun p => p.BuildVersion.length) (dcrPs ps) 0

theorem c8_column_widths_witness :
    maxPID (dcrPs [⟨7, 0, "dcrd", "", "", false⟩, ⟨1234, 0, "dcrd", "", "", false⟩]) = 4
    ∧ (toString (⟨1234, 0, "dcrd", "", "", false⟩ : P).PID).length
        ≤ maxPID (dcrPs [⟨7, 0, "dcrd", "", "", false⟩, ⟨1234, 0, "dcrd", "", "", false⟩]) :=
  ⟨rfl,
   ((c8_column_widths [⟨7, 0, "dcrd", "", "", false⟩, ⟨1234, 0, "dcrd", "", "", false⟩]).1
     ⟨1234, 0, "dcrd", "", "", false⟩ (by decide)).1⟩

/-- C9: the argument "help", and any unrecognized first argument that parses
as neither a numeric PID nor a known command nor a known family executable
name, print the full help text to standard error and exit with status 1
(the unrecognized case additionally prints a message line to standard
output). -/
theorem c9_usage_errors :
    (∀ (prog : String) (rest : List String) (n2p : String → Option Int),
      dcrpsMain (prog :: "help" :: rest) n2p
        = MainOutcome.usageExit "" (helpText ++ "\n") 1)
    ∧ (∀ (prog s : String) (rest : List String) (n2p : String → Option Int),
        atoi s = none → s ≠ "help" → s ≠ "tree" → cmds.contains s = false →
        n2p s = none →
        dcrpsMain (prog :: s :: rest) n2p
          = MainOutcome.usageExit "dcrps: unknown subcommand\n" (helpText ++ "\n") 1) := by
  constructor
  · intro prog rest n2p
    rfl
  · intro prog s rest n2p hatoi hhelp htree hcmds hn2p
    simp only [dcrpsMain, hatoi]
    rw [if_neg hhelp, if_neg htree, hcmds]
    simp only [Bool.false_eq_true, if_false, hn2p]
    rfl

theorem c9_usage_errors_witness :
    dcrpsMain ["dcrps", "help"] (fun _ => none)
      = MainOutcome.usageExit "" (helpText ++ "\n") 1
    ∧ dcrpsMain ["dcrps", "bogus"] (fun _ => none)
      = MainOutcome.usageExit "dcrps: unknown subcommand\n" (helpText ++ "\n") 1 :=
  ⟨c9_usage_errors.1 "dcrps" [] (fun _ => none),
   c9_usage_errors.2 "dcrps" "bogus" [] (fun _ => none) rfl (by decide) (by decide) rfl rfl⟩

/-! Behaviour of the startup name-to-PID table on duplicate names. -/

theorem buildNameToPid_aux (name : String) :
    ∀ (ps : List P) (m : String → Option Int),
      ((ps.filter (fun p => hasPre p.Exec dcrPrefix && p.Exec == name)).length = 0 →
        (ps.foldl
          (fun m p =>
            if hasPre p.Exec dcrPrefix then
              match m p.Exec with
              | some _ => updateNameMap m p.Exec (some (-1))
              | none => updateNameMap m p.Exec (some p.PID)
            else m)
          m) name = m name)
      ∧ (1 ≤ (ps.filter (fun p => hasPre p.Exec dcrPrefix && p.Exec == name)).length →
          (m name).isSome = true →
          (ps.foldl
            (fun m p =>
              if hasPre p.Exec dcrPrefix then
                match m p.Exec with
                | some _ => updateNameMap m p.Exec (some (-1))
                | none => updateNameMap m p.Exec (some p.PID)
              else m)
            m) name = some (-1))
      ∧ (2 ≤ (ps.filter (fun p => hasPre p.Exec dcrPrefix && p.Exec == name)).length →
          (ps.foldl
            (fun m p =>
              if hasPre p.Exec dcrPrefix then
                match m p.Exec with
                | some _ => updateNameMap m p.Exec (some (-1))
                | none => updateNameMap m p.Exec (some p.PID)
              else m)
            m) name = some (-1)) := by
  intro ps
  induction ps with
  | nil =>
    intro m
    refine ⟨fun _ => rfl, fun h1 _ => ?_, fun h2 => ?_⟩
    · simp at h1
    · simp at h2
  | cons p rest ih =>
    intro m
    simp only [List.foldl_cons, List.filter_cons]
    by_cases hpre : hasPre p.Exec dcrPrefix
    · by_cases hex : p.Exec = name
      · subst hex
        rw [if_pos hpre]
        have hcond : (hasPre p.Exec dcrPrefix && (p.Exec == p.Exec)) = true := by
          rw [hpre]; simp
        rw [hcond]
        simp only [List.length_cons, if_true]
        cases hm : m p.Exec with
        | some x =>
          have hupd : (updateNameMap m p.Exec (some (-1))) p.Exec = some (-1) := by
            simp [updateNameMap]
          refine ⟨fun h0 => by omega, fun _ _ => ?_, fun _ => ?_⟩
          · rcases Nat.eq_zero_or_pos
                ((rest.filter (fun p' => hasPre p'.Exec dcrPrefix && p'.Exec == p.Exec)).length)
              with hz | hpos
            · rw [(ih (updateNameMap m p.Exec (some (-1)))).1 hz, hupd]
            · exact (ih (updateNameMap m p.Exec (some (-1)))).2.1 hpos (by rw [hupd]; rfl)
          · rcases Nat.eq_zero_or_pos
                ((rest.filter (fun p' => hasPre p'.Exec dcrPrefix && p'.Exec == p.Exec)).length)
              with hz | hpos
            · rw [(ih (updateNameMap m p.Exec (some (-1)))).1 hz, hupd]
            · exact (ih (updateNameMap m p.Exec (some (-1)))).2.1 hpos (by rw [hupd]; rfl)
        | none =>
          have hupd : (updateNameMap m p.Exec (some p.PID)) p.Exec = some p.PID := by
            simp [updateNameMap]
          refine ⟨fun h0 => by omega, fun _ hsome => ?_, fun h2 => ?_⟩
          · simp at hsome
          · have hpos :
                1 ≤ (rest.filter (fun p' => hasPre p'.Exec dcrPrefix && p'.Exec == p.Exec)).length := by
              omega
            exact (ih (updateNameMap m p.Exec (some p.PID))).2.1 hpos (by rw [hupd]; rfl)
      · rw [if_pos hpre]
        have hcond : (hasPre p.Exec dcrPrefix && (p.Exec == name)) = false := by
          simp [hex]
        rw [hcond]
        simp only [Bool.false_eq_true, if_false]
        have hname : ∀ v, (updateNameMap m p.Exec v) name = m name := by
          intro v
          simp [updateNameMap, Ne.symm hex]
        cases hm : m p.Exec with
        | some x =>
          refine ⟨fun h0 => ?_, fun h1 hsome => ?_, fun h2 => ?_⟩
          · rw [(ih (updateNameMap m p.Exec (some (-1)))).1 h0, hname]
          · exact (ih (updateNameMap m p.Exec (some (-1)))).2.1 h1 (by rw [hname]; exact hsome)
          · exact (ih (updateNameMap m p.Exec (some (-1)))).2.2 h2
        | none =>
          refine ⟨fun h0 => ?_, fun h1 hsome => ?_, fun h2 => ?_⟩
          · rw [(ih (updateNameMap m p.Exec (some p.PID))).1 h0, hname]
          · exact (ih (updateNameMap m p.Exec (some p.PID))).2.1 h1 (by rw [hname]; exact hsome)
          · exact (ih (updateNameMap m p.Exec (some p.PID))).2.2 h2
    · rw [if_neg hpre]
      have hcond : (hasPre p.Exec dcrPrefix && (p.Exec == name)) = false := by
        simp [hpre]
      rw [hcond]
      simp only [Bool.false_eq_true, if_false]
      exact ih m

theorem buildNameToPid_dup (ps : List P) (name : String)
    (h2 : 2 ≤ (ps.filter (fun p => hasPre p.Exec dcrPrefix && p.Exec == name)).length) :
    buildNameToPid ps name = some (-1) :=
  (buildNameToPid_aux name ps (fun _ => none)).2.2 h2

/-- C10: when two or more snapshot records share the same family executable
name, the startup name-to-PID table maps that name to -1, and invoking the
tool with that executable name as the first argument queries process
information for PID -1 instead of reporting an ambiguity or picking one of
the matching processes. -/
theorem c10_duplicate_name_queries_pid_minus_one (ps : List P) (name : String)
    (hdup : 2 ≤ (ps.filter (fun p => hasPre p.Exec dcrPrefix && p.Exec == name)).length)
    (hatoi : atoi name = none) (hhelp : name ≠ "help") (htree : name ≠ "tree")
    (hcmds : cmds.contains name = false) :
    buildNameToPid ps name = some (-1)
    ∧ dcrpsMain ["dcrps", name] (buildNameToPid ps) = MainOutcome.procInfo (-1) := by
  have hl := buildNameToPid_dup ps name hdup
  refine ⟨hl, ?_⟩
  simp only [dcrpsMain, hatoi]
  rw [if_neg hhelp, if_neg htree, hcmds]
  simp only [Bool.false_eq_true, if_false, hl]

/-- Behaviour of one renderer call on an unvisited key with an empty bucket
and a non-matching ppid: a composed-label leaf is added and the key is
marked. -/
theorem construct_leaf (pstree : Int → List P) (fuel : Nat) (k : Int) (p : P)
    (seen : List Int) (hk : k ∉ seen) (hne : k ≠ p.PPID) (hbk : pstree k = []) :
    constructProcessTree pstree (fuel+1) k p seen
      = some (k :: seen, some (Tree.node (if p.Agent then some "*" else none)
          (toString k ++ " (" ++ p.Exec ++ ")" ++ " \x7b" ++ p.BuildVersion ++ "\x7d") [])) := by
  rw [construct_succ, if_neg hk, hbk, childLoop_nil]
  dsimp only
  rw [if_pos hne]

/-- C5: when two unrelated top-level records share the parent identifier 0,
both are rendered as siblings under the one branch for that shared parent
(itself under the synthetic root): the first record's top-level call expands
the shared bucket and renders every record in it, including the second
record's node, and the second record's top-level call is skipped entirely by
the visited-parent guard, adding no node and leaving the visited set
unchanged. -/
theorem c5_shared_parent_rendered_as_siblings (a b : P)
    (ha : hasPre a.Exec dcrPrefix = true) (hb : hasPre b.Exec dcrPrefix = true)
    (hppa : a.PPID = 0) (hppb : b.PPID = 0)
    (ha0 : a.PID ≠ 0) (hb0 : b.PID ≠ 0) (hab : a.PID ≠ b.PID) :
    renderProcessTree [a, b]
      = some ([b.PID, a.PID, 0], Tree.node none "..."
          [Tree.node none (toString (0 : Int))
            [Tree.node (if a.Agent then some "*" else none)
              (toString a.PID ++ " (" ++ a.Exec ++ ")" ++ " \x7b" ++ a.BuildVersion ++ "\x7d") [],
             Tree.node (if b.Agent then some "*" else none)
              (toString b.PID ++ " (" ++ b.Exec ++ ")" ++ " \x7b" ++ b.BuildVersion ++ "\x7d") []]])
    ∧ constructProcessTree (buildPstree [a, b]) (defaultFuel [a, b]) b.PPID b
        [b.PID, a.PID, 0]
      = some ([b.PID, a.PID, 0], none) := by
  have hps0 : buildPstree [a, b] 0 = [a, b] := by
    rw [buildPstree_spec]
    simp [ha, hb, hppa, hppb]
  have hpsa : buildPstree [a, b] a.PID = [] := by
    rw [buildPstree_spec]
    simp [hppa, hppb, Ne.symm ha0]
  have hpsb : buildPstree [a, b] b.PID = [] := by
    rw [buildPstree_spec]
    simp [hppa, hppb, Ne.symm hb0]
  have hA : constructProcessTree (buildPstree [a, b]) (5+1) a.PID a [0]
      = some ([a.PID, 0], some (Tree.node (if a.Agent then some "*" else none)
          (toString a.PID ++ " (" ++ a.Exec ++ ")" ++ " \x7b" ++ a.BuildVersion ++ "\x7d") [])) :=
    construct_leaf _ 5 a.PID a [0] (by simp [ha0]) (by rw [hppa]; exact ha0) hpsa
  have hB : constructProcessTree (buildPstree [a, b]) (5+1) b.PID b [a.PID, 0]
      = some ([b.PID, a.PID, 0], some (Tree.node (if b.Agent then some "*" else none)
          (toString b.PID ++ " (" ++ b.Exec ++ ")" ++ " \x7b" ++ b.BuildVersion ++ "\x7d") [])) :=
    construct_leaf _ 5 b.PID b [a.PID, 0] (by simp [Ne.symm hab, hb0])
      (by rw [hppb]; exact hb0) hpsb
  have hChild : childLoop (constructProcessTree (buildPstree [a, b]) (5+1)) [a, b] [0]
      = some ([b.PID, a.PID, 0],
          [Tree.node (if a.Agent then some "*" else none)
            (toString a.PID ++ " (" ++ a.Exec ++ ")" ++ " \x7b" ++ a.BuildVersion ++ "\x7d") [],
           Tree.node (if b.Agent then some "*" else none)
            (toString b.PID ++ " (" ++ b.Exec ++ ")" ++ " \x7b" ++ b.BuildVersion ++ "\x7d") []]) := by
    rw [childLoop_cons, hA]
    dsimp only
    rw [childLoop_cons, hB]
    dsimp only
    rw [childLoop_nil]
    rfl
  have hRoot : constructProcessTree (buildPstree [a, b]) (5+1+1) 0 a []
      = some ([b.PID, a.PID, 0], some (Tree.node none (toString (0 : Int))
          [Tree.node (if a.Agent then some "*" else none)
            (toString a.PID ++ " (" ++ a.Exec ++ ")" ++ " \x7b" ++ a.BuildVersion ++ "\x7d") [],
           Tree.node (if b.Agent then some "*" else none)
            (toString b.PID ++ " (" ++ b.Exec ++ ")" ++ " \x7b" ++ b.BuildVersion ++ "\x7d") []])) := by
    rw [construct_succ (buildPstree [a, b]) (5+1) 0 a []]
    rw [if_neg (List.not_mem_nil (0 : Int))]
    rw [hps0, hChild]
    dsimp only
    have h00 : ¬((0 : Int) ≠ a.PPID) := by rw [hppa]; simp
    rw [if_neg h00]
  have hSkip : constructProcessTree (buildPstree [a, b]) (5+1+1) 0 b [b.PID, a.PID, 0]
      = some ([b.PID, a.PID, 0], none) := by
    rw [construct_succ (buildPstree [a, b]) (5+1) 0 b [b.PID, a.PID, 0]]
    rw [if_pos (by simp : (0 : Int) ∈ [b.PID, a.PID, 0])]
  have hLoop : displayLoop (buildPstree [a, b]) (5+1+1) [a, b] []
      = some ([b.PID, a.PID, 0], [Tree.node none (toString (0 : Int))
          [Tree.node (if a.Agent then some "*" else none)
            (toString a.PID ++ " (" ++ a.Exec ++ ")" ++ " \x7b" ++ a.BuildVersion ++ "\x7d") [],
           Tree.node (if b.Agent then some "*" else none)
            (toString b.PID ++ " (" ++ b.Exec ++ ")" ++ " \x7b" ++ b.BuildVersion ++ "\x7d") []]]) := by
    rw [displayLoop_cons, if_pos ha, hppa, hRoot]
    dsimp only
    rw [displayLoop_cons, if_pos hb, hppb, hSkip]
    dsimp only
    rw [displayLoop_nil]
    rfl
  constructor
  · have hren : renderProcessTree [a, b] = displayProcessTree [a, b] (5+1+1) := rfl
    rw [hren, displayProcessTree, hLoop]
  · have hfuel : constructProcessTree (buildPstree [a, b]) (defaultFuel [a, b]) b.PPID b
        [b.PID, a.PID, 0]
        = constructProcessTree (buildPstree [a, b]) (5+1+1) b.PPID b [b.PID, a.PID, 0] := rfl
    rw [hfuel, hppb, hSkip]

theorem c5_shared_parent_rendered_as_siblings_witness :
    renderProcessTree [⟨1, 0, "dcra", "", "", false⟩, ⟨2, 0, "dcrb", "", "1.0", true⟩]
      = some ([2, 1, 0], Tree.node none "..."
          [Tree.node none "0"
            [Tree.node none "1 (dcra) \x7b\x7d" [],
             Tree.node (some "*") "2 (dcrb) \x7b1.0\x7d" []]])
    ∧ constructProcessTree
        (buildPstree [⟨1, 0, "dcra", "", "", false⟩, ⟨2, 0, "dcrb", "", "1.0", true⟩])
        (defaultFuel [⟨1, 0, "dcra", "", "", false⟩, ⟨2, 0, "dcrb", "", "1.0", true⟩])
        (⟨2, 0, "dcrb", "", "1.0", true⟩ : P).PPID ⟨2, 0, "dcrb", "", "1.0", true⟩
        [2, 1, 0]
      = some ([2, 1, 0], none) :=
  c5_shared_parent_rendered_as_siblings
    ⟨1, 0, "dcra", "", "", false⟩ ⟨2, 0, "dcrb", "", "1.0", true⟩
    rfl rfl rfl rfl (by decide) (by decide) (by decide)

theorem c10_duplicate_name_queries_pid_minus_one_witness :
    buildNameToPid [⟨1, 0, "dcrd", "", "", false⟩, ⟨2, 0, "dcrd", "", "", false⟩] "dcrd"
      = some (-1)
    ∧ dcrpsMain ["dcrps", "dcrd"]
        (buildNameToPid [⟨1, 0, "dcrd", "", "", false⟩, ⟨2, 0, "dcrd", "", "", false⟩])
      = MainOutcome.procInfo (-1) :=
  c10_duplicate_name_queries_pid_minus_one
    [⟨1, 0, "dcrd", "", "", false⟩, ⟨2, 0, "dcrd", "", "", false⟩] "dcrd"
    (by decide) rfl (by decide) (by decide) rfl

end Dcrps
